import Mathlib

/-!
Verification of the host-side PnL proof orchestration layer: FIFO lot
mirroring, lot-state-tree hashing, recursive proof aggregation, tag-window
scanning, and the signed-PnL encoding conventions.

All hashing is abstracted by a parameter H : List Nat → Nat standing for
the Poseidon2 hash over field elements; field elements, token amounts and
prices are modelled as Nat, signed 64-bit PnL values as Int.
-/

/-- A FIFO cost-basis lot: amount of tracked token acquired at a given
oracle price. Mirrors the TypeScript interface Lot. -/
structure Lot where
  amount : Nat
  costPerUnit : Nat
deriving DecidableEq, Repr

/-- Decoding of the sign-magnitude PnL pair used by the drivers: the code
computes pnl as minus the magnitude when the negativity flag equals one,
else the magnitude itself. -/
def decodeSignedPnl (pnlAbs pnlIsNeg : Nat) : Int :=
  if pnlIsNeg = 1 then -(pnlAbs : Int) else (pnlAbs : Int)

/-- Modelled from the spec: the circuit encodes a signed PnL value as a
magnitude field together with an is-negative flag field. -/
def signMagEncode (v : Int) : Nat × Nat :=
  (v.natAbs, if v < 0 then 1 else 0)

/-- Definition following the words of the spec, for comparison with the
code: a decoder of a single two's-complement field treats a field with
value at least 2 to the 63 as value minus 2 to the 64. -/
def specTwosComplementDecode (f : Nat) : Int :=
  if 2 ^ 63 ≤ f then (f : Int) - 2 ^ 64 else (f : Int)

/-- Definition following the words of the spec, for comparison with the
code: encoding a signed 64-bit value into a single field as the value cast
to unsigned 64-bit. -/
def specTwosComplementEncode (v : Int) : Nat :=
  (v % 2 ^ 64).toNat

namespace SwapProver

/-- Max concurrent lots of the individual swap prover (circuit MAX_LOTS). -/
def MAX_LOTS : Nat := 8

/-- The clone-and-pad step of computeRemainingLots: copy the initial lots
into a fresh array of MAX_LOTS entries, empty lots past the input length. -/
def cloneLots (initialLots : List Lot) : List Lot :=
  (List.range MAX_LOTS).map (fun i => initialLots.getD i ⟨0, 0⟩)

/-- The FIFO consumption loop of computeRemainingLots: walk the lot array
in order; under the guard that the remaining amount and the lot amount are
both positive, consume the smaller of the two from both. Returns the
updated lots and the remaining amount after the scan. -/
def fifoConsume : List Lot → Nat → List Lot × Nat
  | [], remaining => ([], remaining)
  | lot :: rest, remaining =>
    if 0 < remaining ∧ 0 < lot.amount then
      let consumed := if remaining < lot.amount then remaining else lot.amount
      let next := fifoConsume rest (remaining - consumed)
      (⟨lot.amount - consumed, lot.costPerUnit⟩ :: next.1, next.2)
    else
      let next := fifoConsume rest remaining
      (lot :: next.1, next.2)

/-- Definition following the words of the spec, for comparison with the
code: every lot gives up consumed = min(remaining, lot.amount); the lot
amount and the remaining amount each decrease by consumed. -/
def fifoSpecConsume : List Lot → Nat → List Lot × Nat
  | [], remaining => ([], remaining)
  | lot :: rest, remaining =>
    let consumed := min remaining lot.amount
    let next := fifoSpecConsume rest (remaining - consumed)
    (⟨lot.amount - consumed, lot.costPerUnit⟩ :: next.1, next.2)

/-- The padding step after compaction: push empty lots until the array is
back to MAX_LOTS entries. -/
def padLots (lots : List Lot) : List Lot :=
  lots ++ List.replicate (MAX_LOTS - lots.length) ⟨0, 0⟩

/-- Host-side mirror of the circuit lot update (computeRemainingLots of
the swap prover). On a buy the new lot is written at position numLots; on
a sell the FIFO loop runs and the array is compacted by keeping the lots
with positive amount, in order, padded back to MAX_LOTS. -/
def computeRemainingLots (tokenOut tokenAddress amountIn amountOut tokenPrice : Nat)
    (initialLots : List Lot) (initialNumLots : Nat) : List Lot × Nat :=
  let lots := cloneLots initialLots
  if tokenOut = tokenAddress then
    (lots.take initialNumLots ++ ⟨amountOut, tokenPrice⟩ :: lots.drop (initialNumLots + 1),
      initialNumLots + 1)
  else
    let consumed := (fifoConsume lots amountIn).1
    let compacted := consumed.filter (fun l => 0 < l.amount)
    (padLots compacted, compacted.length)

/-- The decrypted swap plaintext fields used by the driver: indices 2..6
of the plaintext field array. -/
structure Plaintext where
  tokenIn : Nat
  tokenOut : Nat
  amountIn : Nat
  amountOut : Nat
  isExactInput : Nat
deriving DecidableEq, Repr

/-- The lot padding of prepareCircuitInputs: an input slot carries the
initial lot only when it exists and has positive amount, else (0, 0). -/
def circuitInputLots (initialLots : List Lot) : List Lot :=
  (List.range MAX_LOTS).map (fun i =>
    let l := initialLots.getD i ⟨0, 0⟩
    if i < initialLots.length ∧ 0 < l.amount then l else ⟨0, 0⟩)

/-- The assertion kinds of the individual swap circuit. -/
inductive AssertKind where
  | notTrackedToken
  | fifoUnderConsumption
deriving DecidableEq, Repr

/-- Modelled from the spec: the FIFO loop of the individual_swap Noir
circuit (absent from the repository sources; its pseudocode is given in
the repository README and architecture document). Walks the lots in
order, consuming min(remaining, lot.amount) under the guard that both are
nonzero, and accumulates the signed PnL
consumed * sell_price - consumed * lot_cost. Returns the updated lots,
the remaining amount, and the signed PnL. -/
def circuitFifo (sellPrice : Nat) : List Lot → Nat → List Lot × Nat × Int
  | [], remaining => ([], remaining, 0)
  | lot :: rest, remaining =>
    if remaining ≠ 0 ∧ lot.amount ≠ 0 then
      let consumed := if remaining < lot.amount then remaining else lot.amount
      let next := circuitFifo sellPrice rest (remaining - consumed)
      (⟨lot.amount - consumed, lot.costPerUnit⟩ :: next.1, next.2.1,
        next.2.2 + (consumed : Int) * (sellPrice : Int) - (consumed : Int) * (lot.costPerUnit : Int))
    else
      let next := circuitFifo sellPrice rest remaining
      (lot :: next.1, next.2.1, next.2.2)

/-- Modelled from the spec: the lot hash of the individual_swap circuit,
applied to the lot array and the lot count. -/
def circuitHashLots (H : List Nat → Nat) (lots : List Lot) (numLots : Nat) : Nat :=
  H (numLots :: lots.flatMap (fun l => [l.amount, l.costPerUnit]))

/-- Modelled from the spec: the individual_swap Noir circuit core (absent
from the repository sources; modelled from the pseudocode in the README
and the architecture document). Asserts that the swap involves the
tracked token; on a sell it runs the FIFO loop and asserts that the
remaining amount is zero after scanning all lots; returns the six public
outputs (leaf, pnl magnitude, pnl negativity flag, remaining lots hash,
initial lots hash, price feed address). -/
def individualSwapCircuit (H : List Nat → Nat) (pt : Plaintext)
    (tokenAddress tokenPrice blockNumber priceFeedAddress : Nat)
    (initialLots : List Lot) (initialNumLots : Nat) :
    Except AssertKind (List Nat) :=
  let isBuy := pt.tokenOut = tokenAddress
  let isSell := pt.tokenIn = tokenAddress
  if ¬(isBuy ∨ isSell) then Except.error AssertKind.notTrackedToken
  else
    let leaf := H [blockNumber, pt.tokenIn, pt.tokenOut, pt.amountIn, pt.amountOut, pt.isExactInput]
    let initialLotsHash := circuitHashLots H initialLots initialNumLots
    if isBuy then
      let lots := initialLots.take initialNumLots ++
        ⟨pt.amountOut, tokenPrice⟩ :: initialLots.drop (initialNumLots + 1)
      Except.ok [leaf, 0, 0, circuitHashLots H lots (initialNumLots + 1),
        initialLotsHash, priceFeedAddress]
    else
      let res := circuitFifo tokenPrice initialLots pt.amountIn
      if res.2.1 ≠ 0 then Except.error AssertKind.fifoUnderConsumption
      else
        let compacted := res.1.filter (fun l => 0 < l.amount)
        let enc := signMagEncode res.2.2
        Except.ok [leaf, enc.1, enc.2,
          circuitHashLots H (padLots compacted) compacted.length,
          initialLotsHash, priceFeedAddress]

/-- The error outcomes of the swap driver. -/
inductive DriverError where
  | decryptFailed
  | blockHeaderNotFound
  | priceWitnessNotFound
  | assertionViolated (kind : AssertKind)
  | proofVerificationFailed
deriving DecidableEq, Repr

/-- The successful outcome of the swap driver: the six public outputs and
the mirrored lot state for chaining. -/
structure ProveResult where
  publicInputs : List Nat
  remainingLots : List Lot
  remainingNumLots : Nat
deriving DecidableEq, Repr

/-- The swap driver (prove of the swap prover): decrypt, fetch the block
header and the price witness, execute the circuit, verify the proof, then
mirror the lot update for state chaining. External effects are passed in
as already-resolved values: decrypted is the decryption outcome, the
block header and price witness options are the node responses, and
proofVerifies is the backend verification verdict. -/
def prove (H : List Nat → Nat) (decrypted : Option Plaintext)
    (blockHeader : Option Nat) (priceWitness : Option Nat) (proofVerifies : Bool)
    (tokenAddress priceFeedAddress blockNumber : Nat)
    (initialLots : List Lot) (initialNumLots : Nat) :
    Except DriverError ProveResult :=
  match decrypted with
  | none => Except.error DriverError.decryptFailed
  | some pt =>
    match blockHeader with
    | none => Except.error DriverError.blockHeaderNotFound
    | some _publicDataTreeRoot =>
      match priceWitness with
      | none => Except.error DriverError.priceWitnessNotFound
      | some tokenPrice =>
        match individualSwapCircuit H pt tokenAddress tokenPrice blockNumber
            priceFeedAddress (circuitInputLots initialLots) initialNumLots with
        | Except.error k => Except.error (DriverError.assertionViolated k)
        | Except.ok outputs =>
          if proofVerifies then
            let upd := computeRemainingLots pt.tokenOut tokenAddress pt.amountIn
              pt.amountOut tokenPrice initialLots initialNumLots
            Except.ok ⟨outputs, upd.1, upd.2⟩
          else Except.error DriverError.proofVerificationFailed

end SwapProver

namespace LotTree

/-- Max lots per token of the lot state tree (circuit MAX_LOTS). -/
def MAX_LOTS : Nat := 32

/-- Height of the lot state tree (circuit LOT_TREE_HEIGHT). -/
def LOT_TREE_HEIGHT : Nat := 3

/-- The pair-filling loop of hashLots: for each slot index below
MAX_LOTS, the preimage carries the lot amount and cost when the slot is
within the supplied lot list, and keeps the zero fill otherwise. The
first argument of the recursion is the current slot index, the second the
number of slots left to fill. -/
def lotPairs (lots : List Lot) : Nat → Nat → List Nat
  | _, 0 => []
  | i, fuel + 1 =>
    (if i < lots.length then (lots.getD i ⟨0, 0⟩).amount else 0) ::
    (if i < lots.length then (lots.getD i ⟨0, 0⟩).costPerUnit else 0) ::
    lotPairs lots (i + 1) fuel

/-- The hash preimage of hashLots: token address, lot count, then
MAX_LOTS (amount, cost_per_unit) pairs, zero-filled past the supplied lot
list. Its length is MAX_LOTS * 2 + 2 = 66 by construction of the fill
loop. -/
def hashLotsPreimage (tokenAddress numLots : Nat) (lots : List Lot) : List Nat :=
  tokenAddress :: numLots :: lotPairs lots 0 MAX_LOTS

/-- The leaf hash of the lot state tree (hashLots): the hash of the fixed
66-field preimage. -/
def hashLots (H : List Nat → Nat) (tokenAddress numLots : Nat) (lots : List Lot) : Nat :=
  H (hashLotsPreimage tokenAddress numLots lots)

/-- One layer step of the tree walk: hash adjacent pairs of the current
layer. -/
def pairHashLayer (H : List Nat → Nat) : List Nat → List Nat
  | a :: b :: rest => H [a, b] :: pairHashLayer H rest
  | _ => []

/-- Iterate the pair-hash layer step a given number of times. -/
def hashLayers (H : List Nat → Nat) : Nat → List Nat → List Nat
  | 0, layer => layer
  | n + 1, layer => hashLayers H n (pairHashLayer H layer)

/-- getRoot of the lot state tree: pair-hash the leaf layer
LOT_TREE_HEIGHT times and take the single remaining node. -/
def getRoot (H : List Nat → Nat) (leaves : List Nat) : Nat :=
  (hashLayers H LOT_TREE_HEIGHT leaves).getD 0 0

/-- The level loop of getSiblingPath: at each level push the sibling of
the current node (index shifted right by the level, xor one) and move to
the next layer. -/
def siblingPathGo (H : List Nat → Nat) (leafIndex : Nat) : Nat → Nat → List Nat → List Nat
  | _, 0, _ => []
  | level, n + 1, layer =>
    layer.getD ((leafIndex >>> level) ^^^ 1) 0 ::
      siblingPathGo H leafIndex (level + 1) n (pairHashLayer H layer)

/-- getSiblingPath of the lot state tree: the LOT_TREE_HEIGHT siblings of
the leaf, bottom up. -/
def getSiblingPath (H : List Nat → Nat) (leaves : List Nat) (leafIndex : Nat) : List Nat :=
  siblingPathGo H leafIndex 0 LOT_TREE_HEIGHT leaves

/-- Definition following the words of the claim, for comparison with the
tree code: recombine a leaf with a sibling path, hashing the running node
on the left when the level bit of the index is zero and on the right when
it is one. -/
def specRecombineGo (H : List Nat → Nat) (leafIndex : Nat) : Nat → Nat → List Nat → Nat
  | _, node, [] => node
  | level, node, sib :: rest =>
    specRecombineGo H leafIndex (level + 1)
      (if (leafIndex >>> level) % 2 = 0 then H [node, sib] else H [sib, node]) rest

/-- Recombination of a leaf with a sibling path, starting at level 0. -/
def specRecombine (H : List Nat → Nat) (leafIndex leaf : Nat) (path : List Nat) : Nat :=
  specRecombineGo H leafIndex 0 leaf path

end LotTree

namespace Imt

/-- The zero-hash chain of the incremental-Merkle utilities: level 0 is
the zero field, level n + 1 hashes two copies of level n. -/
def zeroHash (H : List Nat → Nat) : Nat → Nat
  | 0 => 0
  | n + 1 => H [zeroHash H n, zeroHash H n]

end Imt

namespace ProofTree

/-- A proof artifact of the aggregation tree: the six public inputs
carried between levels. The proof bytes and their field encoding are
opaque payloads of the external backend and do not enter the public
output computation, so they are not modelled. -/
structure ProofArtifact where
  publicInputs : List Nat
deriving DecidableEq, Repr

/-- Modelled from the spec: the output computation of the
swap_summary_tree Noir circuit (absent from the repository sources;
modelled from the architecture document). The root pair-hashes the child
roots, with the zero leaf standing in for an absent right child; the PnL
is the signed sum of the two sign-magnitude child values, re-encoded; the
remaining lots hash is the right child hash when present, else the left;
the initial lots hash and price feed address come from the left child.
The in-circuit verification and chaining assertions abort proving and
produce no artifact, so they are not modelled here. -/
def summaryCombine (H : List Nat → Nat) (left : List Nat) (right : Option (List Nat))
    (zeroLeaf : Nat) : List Nat :=
  let leftRoot := left.getD 0 0
  let rightRoot :=
    match right with
    | some r => r.getD 0 0
    | none => zeroLeaf
  let total := decodeSignedPnl (left.getD 1 0) (left.getD 2 0) +
    (match right with
     | some r => decodeSignedPnl (r.getD 1 0) (r.getD 2 0)
     | none => 0)
  let enc := signMagEncode total
  let remaining :=
    match right with
    | some r => r.getD 3 0
    | none => left.getD 3 0
  [H [leftRoot, rightRoot], enc.1, enc.2, remaining, left.getD 4 0, left.getD 5 0]

/-- combineProofs of the aggregation tree: execute the summary circuit on
the two child public-input vectors, supplying the zero hash of the level
in place of an absent right child, and package the six outputs as the
combined artifact. -/
def combineProofs (H : List Nat → Nat) (left : ProofArtifact)
    (right : Option ProofArtifact) (level : Nat) : ProofArtifact :=
  ⟨summaryCombine H left.publicInputs (right.map ProofArtifact.publicInputs)
    (Imt.zeroHash H level)⟩

/-- One level of the pairing loop of buildTree: combine children two at a
time, left to right; a trailing odd child is combined with an absent
right. -/
def pairLevel (H : List Nat → Nat) (level : Nat) : List ProofArtifact → List ProofArtifact
  | [] => []
  | [a] => [combineProofs H a none level]
  | a :: b :: rest => combineProofs H a (some b) level :: pairLevel H level rest

/-- The while loop of buildTree: pair the current level while more than
one artifact remains, increasing the level counter. The fuel argument
bounds the number of iterations; the wrapper supplies enough fuel. -/
def buildLevels (H : List Nat → Nat) : Nat → Nat → List ProofArtifact → List ProofArtifact
  | 0, _, cur => cur
  | fuel + 1, level, cur =>
    if cur.length ≤ 1 then cur
    else buildLevels H fuel (level + 1) (pairLevel H level cur)

/-- buildTree of the aggregation tree: run the pairing loop to a single
artifact; a single input proof is still wrapped in one summary
application at level 0 with an absent right child. -/
def buildTree (H : List Nat → Nat) (proofs : List ProofArtifact) : Option ProofArtifact :=
  match proofs with
  | [p] => some (combineProofs H p none 0)
  | _ => (buildLevels H proofs.length 0 proofs).head?

end ProofTree

namespace Scan

/-- The base tag of a tagging secret at an index. -/
def baseTag (H : List Nat → Nat) (secret i : Nat) : Nat :=
  H [secret, i]

/-- The app-siloed form of a tag. -/
def siloTag (H : List Nat → Nat) (app t : Nat) : Nat :=
  H [app, t]

/-- The base tags of one window: one per offset below the window count. -/
def windowBaseTags (H : List Nat → Nat) (secret index count : Nat) : List Nat :=
  (List.range count).map (fun i => baseTag H secret (index + i))

/-- The siloed tags of one window: each base tag siloed with the contract
address. -/
def windowSiloedTags (H : List Nat → Nat) (secret app index count : Nat) : List Nat :=
  (windowBaseTags H secret index count).map (fun t => siloTag H app t)

/-- The tag count of the window starting at an index: the batch size,
truncated at the scan cap. -/
def windowCount (startIndex maxIndices batchSize index : Nat) : Nat :=
  min batchSize (startIndex + maxIndices - index)

/-- The tag indices of the window starting at an index. -/
def windowIndices (startIndex maxIndices batchSize index : Nat) : List Nat :=
  (List.range (windowCount startIndex maxIndices batchSize index)).map (fun i => index + i)

/-- Whether every tag of a window returned an empty log list from the
node. The node responses are passed in as a function from siloed tag to
log list. -/
def windowAllEmpty (node : Nat → List Nat) (H : List Nat → Nat)
    (secret app : Nat) (w : List Nat) : Bool :=
  w.all (fun i => (node (siloTag H app (baseTag H secret i))).isEmpty)

/-- The window loop of the tag scan: while the index is below the cap,
process the window at the index; stop after the first window in which
every tag returned an empty list, else advance by the batch size. Returns
the processed windows as lists of tag indices. -/
def scanGo (node : Nat → List Nat) (H : List Nat → Nat)
    (secret app startIndex maxIndices batchSize : Nat) :
    Nat → Nat → List (List Nat)
  | 0, _ => []
  | fuel + 1, index =>
    if index < startIndex + maxIndices then
      let w := windowIndices startIndex maxIndices batchSize index
      if windowAllEmpty node H secret app w then [w]
      else w :: scanGo node H secret app startIndex maxIndices batchSize fuel (index + batchSize)
    else []

/-- The tag scan: run the window loop from the start index. The fuel
maxIndices + 1 covers every possible window count. -/
def scanWindows (node : Nat → List Nat) (H : List Nat → Nat)
    (secret app startIndex maxIndices batchSize : Nat) : List (List Nat) :=
  scanGo node H secret app startIndex maxIndices batchSize (maxIndices + 1) startIndex

end Scan

/-- A concrete injective-enough stand-in hash for witness statements. -/
def testHash (l : List Nat) : Nat :=
  l.foldl (fun a x => a * 1000003 + x + 1) 7

/-- A concrete left artifact for witness and counterexample statements:
leaf 100, PnL gain 3, remaining hash 40, initial hash 30, oracle 7. -/
def artA : ProofTree.ProofArtifact :=
  ⟨[100, 3, 0, 40, 30, 7]⟩

/-- A concrete right artifact for witness and counterexample statements:
leaf 200, PnL loss 10, remaining hash 50, initial hash 40, oracle 7. -/
def artB : ProofTree.ProofArtifact :=
  ⟨[200, 10, 1, 50, 40, 7]⟩

/-- A concrete decrypted plaintext for witness statements: sells 7 units
of token 1 for 9 units of token 2. -/
def testPlaintext : SwapProver.Plaintext :=
  ⟨1, 2, 7, 9, 1⟩

/-- The artifact shape shared by individual and summary proofs: six
public inputs, the third of which is a boolean PnL negativity flag. -/
def ArtifactShape (a : ProofTree.ProofArtifact) : Prop :=
  a.publicInputs.length = 6 ∧ a.publicInputs.getD 2 0 ≤ 1

/- ## Helper lemmas -/

/-- The FIFO loop of the host mirror agrees with its min-based
description: the guard of the code changes nothing because the consumed
amount min(remaining, lot.amount) is zero exactly when the guard fails. -/
theorem fifoConsume_eq_spec : ∀ (lots : List Lot) (r : Nat),
    SwapProver.fifoConsume lots r = SwapProver.fifoSpecConsume lots r
  | [], _ => rfl
  | lot :: rest, r => by
    simp only [SwapProver.fifoConsume, SwapProver.fifoSpecConsume]
    by_cases hg : 0 < r ∧ 0 < lot.amount
    · rw [if_pos hg]
      have hc : (if r < lot.amount then r else lot.amount) = min r lot.amount := by
        rw [Nat.min_def]; split <;> split <;> omega
      rw [hc, fifoConsume_eq_spec rest (r - min r lot.amount)]
    · rw [if_neg hg]
      have hc : min r lot.amount = 0 := by omega
      rw [fifoConsume_eq_spec rest r]
      simp [hc]

/-- The FIFO loop preserves the length of the lot array. -/
theorem fifoConsume_length : ∀ (lots : List Lot) (r : Nat),
    (SwapProver.fifoConsume lots r).1.length = lots.length
  | [], _ => rfl
  | lot :: rest, r => by
    simp only [SwapProver.fifoConsume]
    by_cases hg : 0 < r ∧ 0 < lot.amount
    · rw [if_pos hg]
      simp [fifoConsume_length rest]
    · rw [if_neg hg]
      simp [fifoConsume_length rest]

/-- The cloned lot array has exactly MAX_LOTS entries. -/
theorem cloneLots_length (initialLots : List Lot) :
    (SwapProver.cloneLots initialLots).length = SwapProver.MAX_LOTS := by
  simp [SwapProver.cloneLots]

/-- Reading the padded compaction result past the end of the compacted
part yields the empty lot. -/
theorem padLots_getD (l : List Lot) (k : Nat) (hk : l.length ≤ k) :
    (SwapProver.padLots l).getD k ⟨0, 0⟩ = ⟨0, 0⟩ := by
  unfold SwapProver.padLots
  rcases Nat.lt_or_ge k (l.length + (SwapProver.MAX_LOTS - l.length)) with h | h
  · have hk2 : k - l.length < SwapProver.MAX_LOTS - l.length := by omega
    rw [List.getD_eq_getElem?_getD, List.getElem?_append_right hk]
    simp [List.getElem?_replicate, hk2]
  · rw [List.getD_eq_default]
    simp only [List.length_append, List.length_replicate]
    omega

/- ## C1 -/

/-- C1: for every sell processed by the host-side lot mirror, the lot
array is walked oldest-first with each lot giving up
min(remaining, lot.amount), as stated by fifoSpecConsume; afterwards the
array is compacted by keeping, in order, exactly the lots with positive
amount, num_lots becomes their count, the array is back to MAX_LOTS
entries, and every entry at or past num_lots is the empty lot (0, 0). -/
theorem computeRemainingLots_sell_fifo_compaction
    (tokenOut tokenAddress amountIn amountOut tokenPrice : Nat)
    (initialLots : List Lot) (initialNumLots : Nat)
    (hsell : tokenOut ≠ tokenAddress) :
    let upd := SwapProver.computeRemainingLots tokenOut tokenAddress amountIn amountOut
      tokenPrice initialLots initialNumLots
    let afterFifo := SwapProver.fifoSpecConsume (SwapProver.cloneLots initialLots) amountIn
    let compacted := afterFifo.1.filter (fun l => 0 < l.amount)
    SwapProver.fifoConsume (SwapProver.cloneLots initialLots) amountIn = afterFifo ∧
    upd.2 = compacted.length ∧
    upd.1.take upd.2 = compacted ∧
    upd.1.length = SwapProver.MAX_LOTS ∧
    (∀ k, upd.2 ≤ k → upd.1.getD k ⟨0, 0⟩ = ⟨0, 0⟩) := by
  intro upd afterFifo compacted
  have hspec := fifoConsume_eq_spec (SwapProver.cloneLots initialLots) amountIn
  have hupd : upd = (SwapProver.padLots compacted, compacted.length) := by
    show SwapProver.computeRemainingLots tokenOut tokenAddress amountIn amountOut
      tokenPrice initialLots initialNumLots = _
    unfold SwapProver.computeRemainingLots
    rw [if_neg hsell, hspec]
  have hlen : compacted.length ≤ SwapProver.MAX_LOTS := by
    have h1 : compacted.length ≤ afterFifo.1.length := List.length_filter_le _ _
    have h2 : afterFifo.1.length = SwapProver.MAX_LOTS := by
      show (SwapProver.fifoSpecConsume (SwapProver.cloneLots initialLots) amountIn).1.length = _
      rw [← hspec, fifoConsume_length, cloneLots_length]
    omega
  refine ⟨hspec, ?_, ?_, ?_, ?_⟩
  · rw [hupd]
  · rw [hupd]
    show (SwapProver.padLots compacted).take compacted.length = compacted
    unfold SwapProver.padLots
    exact List.take_left compacted _
  · rw [hupd]
    show (SwapProver.padLots compacted).length = SwapProver.MAX_LOTS
    unfold SwapProver.padLots
    simp only [List.length_append, List.length_replicate]
    omega
  · intro k hk
    rw [hupd] at hk ⊢
    exact padLots_getD compacted k hk

/-- Witness for C1 at a concrete sell: tracked token 1 sold via a swap
with token_out 2, amount 7 against lots (5, 10) and (4, 20). -/
theorem computeRemainingLots_sell_fifo_compaction_witness :
    (SwapProver.computeRemainingLots 2 1 7 9 3 [⟨5, 10⟩, ⟨4, 20⟩] 2).2 =
      (((SwapProver.fifoSpecConsume (SwapProver.cloneLots [⟨5, 10⟩, ⟨4, 20⟩]) 7).1).filter
        (fun l => 0 < l.amount)).length ∧
    (SwapProver.computeRemainingLots 2 1 7 9 3 [⟨5, 10⟩, ⟨4, 20⟩] 2).1.length =
      SwapProver.MAX_LOTS := by
  have h := computeRemainingLots_sell_fifo_compaction 2 1 7 9 3 [⟨5, 10⟩, ⟨4, 20⟩] 2
    (by decide)
  exact ⟨h.2.1, h.2.2.2.1⟩

/- ## C2 -/

/-- The FIFO loop of the modelled circuit leaves the same remaining
amount as the FIFO loop of the host mirror: the two guards are equivalent
and the consumed amounts coincide. -/
theorem circuitFifo_remaining : ∀ (sellPrice : Nat) (lots : List Lot) (r : Nat),
    (SwapProver.circuitFifo sellPrice lots r).2.1 = (SwapProver.fifoConsume lots r).2
  | _, [], _ => rfl
  | sellPrice, lot :: rest, r => by
    simp only [SwapProver.circuitFifo, SwapProver.fifoConsume]
    by_cases hg : 0 < r ∧ 0 < lot.amount
    · rw [if_pos hg, if_pos (by omega : r ≠ 0 ∧ lot.amount ≠ 0)]
      simp [circuitFifo_remaining sellPrice rest]
    · rw [if_neg hg, if_neg (by omega : ¬(r ≠ 0 ∧ lot.amount ≠ 0))]
      simp [circuitFifo_remaining sellPrice rest]

/-- The remaining amount left by the FIFO loop depends only on the lot
amounts, not on the cost fields. -/
theorem fifoConsume_remaining_congr : ∀ (l₁ l₂ : List Lot) (r : Nat),
    l₁.map Lot.amount = l₂.map Lot.amount →
    (SwapProver.fifoConsume l₁ r).2 = (SwapProver.fifoConsume l₂ r).2
  | [], [], _, _ => rfl
  | [], _ :: _, _, h => by simp at h
  | _ :: _, [], _, h => by simp at h
  | lot₁ :: rest₁, lot₂ :: rest₂, r, h => by
    simp only [List.map_cons, List.cons.injEq] at h
    obtain ⟨hhead, htail⟩ := h
    simp only [SwapProver.fifoConsume]
    by_cases hg : 0 < r ∧ 0 < lot₁.amount
    · have hg₂ : 0 < r ∧ 0 < lot₂.amount := by omega
      rw [if_pos hg, if_pos hg₂]
      have hcons : (if r < lot₁.amount then r else lot₁.amount) =
          (if r < lot₂.amount then r else lot₂.amount) := by rw [hhead]
      simp only [hcons]
      exact fifoConsume_remaining_congr rest₁ rest₂ _ htail
    · have hg₂ : ¬(0 < r ∧ 0 < lot₂.amount) := by omega
      rw [if_neg hg, if_neg hg₂]
      exact fifoConsume_remaining_congr rest₁ rest₂ r htail

/-- The lot padding of the circuit inputs carries the same amounts as the
cloned lot array of the host mirror: zeroing a lot whose amount is
already zero changes no amount. -/
theorem circuitInputLots_amounts (initialLots : List Lot) :
    (SwapProver.circuitInputLots initialLots).map Lot.amount =
      (SwapProver.cloneLots initialLots).map Lot.amount := by
  unfold SwapProver.circuitInputLots SwapProver.cloneLots
  rw [List.map_map, List.map_map]
  apply List.map_congr_left
  intro i _
  simp only [Function.comp_apply]
  by_cases h1 : i < initialLots.length
  · by_cases h2 : 0 < (initialLots.getD i ⟨0, 0⟩).amount
    · rw [if_pos ⟨h1, h2⟩]
    · rw [if_neg (by tauto)]
      show (0 : Nat) = _
      omega
  · rw [if_neg (by tauto)]
    rw [List.getD_eq_default _ _ (by omega)]

/-- C2: a sell in which the FIFO scan over all lots leaves a positive
remaining amount makes the swap driver fail with the fatal
under-consumption assertion of the circuit instead of completing the lot
update. The assertion itself lives in the individual_swap circuit, which
is modelled from the spec; the driver executes the circuit before the
host mirror runs, so no lot update is returned. -/
theorem prove_fifo_underconsumption_fails (H : List Nat → Nat)
    (pt : SwapProver.Plaintext) (publicDataTreeRoot tokenPrice : Nat)
    (proofVerifies : Bool) (tokenAddress priceFeedAddress blockNumber : Nat)
    (initialLots : List Lot) (initialNumLots : Nat)
    (hIn : pt.tokenIn = tokenAddress) (hOut : pt.tokenOut ≠ tokenAddress)
    (hrem : (SwapProver.fifoConsume (SwapProver.cloneLots initialLots) pt.amountIn).2 ≠ 0) :
    SwapProver.prove H (some pt) (some publicDataTreeRoot) (some tokenPrice) proofVerifies
      tokenAddress priceFeedAddress blockNumber initialLots initialNumLots =
    Except.error (SwapProver.DriverError.assertionViolated
      SwapProver.AssertKind.fifoUnderConsumption) := by
  have hcircrem : (SwapProver.circuitFifo tokenPrice (SwapProver.circuitInputLots initialLots)
      pt.amountIn).2.1 ≠ 0 := by
    rw [circuitFifo_remaining,
      fifoConsume_remaining_congr _ _ _ (circuitInputLots_amounts initialLots)]
    exact hrem
  have hcirc : SwapProver.individualSwapCircuit H pt tokenAddress tokenPrice blockNumber
      priceFeedAddress (SwapProver.circuitInputLots initialLots) initialNumLots =
      Except.error SwapProver.AssertKind.fifoUnderConsumption := by
    unfold SwapProver.individualSwapCircuit
    rw [if_neg (by push_neg; simp [hIn, hOut])]
    rw [if_neg hOut]
    rw [if_pos hcircrem]
  simp only [SwapProver.prove, hcirc]

/-- Witness for C2: selling 7 units of token 1 against a single lot of 5
units fails with the under-consumption assertion. -/
theorem prove_fifo_underconsumption_fails_witness :
    SwapProver.prove testHash (some testPlaintext) (some 0) (some 3) true 1 2 3
      [⟨5, 10⟩] 1 =
    Except.error (SwapProver.DriverError.assertionViolated
      SwapProver.AssertKind.fifoUnderConsumption) :=
  prove_fifo_underconsumption_fails testHash testPlaintext 0 3 true 1 2 3 [⟨5, 10⟩] 1
    rfl (by decide) (by decide)

/- ## C3 -/

/-- C3 counterexample: the PnL convention of the code is a sign-magnitude
pair, not a single two's-complement field. The driver decoder maps the
pair (5, negative) to -5, while the decoder of the claim maps the bare
field 5 (below 2 to the 63) to +5; the two's-complement encoding of -5
differs from the magnitude field 5 the circuit emits; and feeding the
emitted magnitude of -5 into the claimed decoder does not return -5, so
the claimed round trip fails on the code. -/
theorem pnl_encoding_not_twos_complement :
    decodeSignedPnl 5 1 = -5 ∧
    specTwosComplementDecode 5 = 5 ∧
    signMagEncode (-5) = (5, 1) ∧
    specTwosComplementDecode ((signMagEncode (-5)).1) ≠ -5 ∧
    specTwosComplementEncode (-5) ≠ (signMagEncode (-5)).1 := by
  refine ⟨?_, ?_, ?_, ?_, ?_⟩ <;> decide

/-- C3 (amended): the PnL is carried as the sign-magnitude pair
(magnitude, negativity flag); the driver decoder composed with the
circuit encoding is the identity on every signed value, in particular on
every 64-bit signed value. -/
theorem signMagEncode_decode_roundTrip (v : Int) :
    decodeSignedPnl (signMagEncode v).1 (signMagEncode v).2 = v := by
  unfold decodeSignedPnl signMagEncode
  by_cases hv : v < 0
  · rw [if_pos hv]
    rw [Int.natCast_natAbs, abs_of_neg hv, neg_neg]
    simp
  · rw [if_neg hv]
    simp only [if_neg (by decide : ¬(0 : Nat) = 1)]
    rw [Int.natCast_natAbs, abs_of_nonneg (le_of_not_lt hv)]

/- ## C4 -/

/-- C4 counterexample: combining a gain of 3 with a loss of 10 gives the
six outputs (root, 7, 1, 50, 30, 7): position 1 holds the magnitude 7 of
the signed total -7 and position 2 the negativity flag, position 5 the
price feed address. Under the claimed shape, position 1 would hold the
two's-complement field of -7 and decode to -7, which it does not, and no
output position carries a block number. -/
theorem summary_outputs_not_claimed_shape :
    (ProofTree.combineProofs testHash artA (some artB) 0).publicInputs =
      [testHash [100, 200], 7, 1, 50, 30, 7] ∧
    (ProofTree.combineProofs testHash artA (some artB) 0).publicInputs.getD 1 0 ≠
      specTwosComplementEncode (-7) ∧
    specTwosComplementDecode
      ((ProofTree.combineProofs testHash artA (some artB) 0).publicInputs.getD 1 0) ≠
      -7 := by
  refine ⟨?_, ?_, ?_⟩ <;> decide

/-- Every output of the summary combinator has the six-field
sign-magnitude shape, whatever the children look like. -/
theorem combineProofs_shape (H : List Nat → Nat) (left : ProofTree.ProofArtifact)
    (right : Option ProofTree.ProofArtifact) (level : Nat) :
    ArtifactShape (ProofTree.combineProofs H left right level) := by
  unfold ArtifactShape ProofTree.combineProofs ProofTree.summaryCombine signMagEncode
  constructor
  · simp
  · simp only [List.getD_cons_succ, List.getD_cons_zero]
    split <;> simp

/-- Every artifact produced by one pairing level is a combinator output
and so has the six-field shape. -/
theorem pairLevel_shape (H : List Nat → Nat) (level : Nat) :
    ∀ (cur : List ProofTree.ProofArtifact) (a : ProofTree.ProofArtifact),
      a ∈ ProofTree.pairLevel H level cur → ArtifactShape a
  | [], a, ha => by simp [ProofTree.pairLevel] at ha
  | [x], a, ha => by
    simp only [ProofTree.pairLevel, List.mem_singleton] at ha
    rw [ha]
    exact combineProofs_shape H x none level
  | x :: y :: rest, a, ha => by
    simp only [ProofTree.pairLevel, List.mem_cons] at ha
    rcases ha with ha | ha
    · rw [ha]
      exact combineProofs_shape H x (some y) level
    · exact pairLevel_shape H level rest a ha

/-- Every artifact produced by the level loop is either one of the input
artifacts or a combinator output. -/
theorem buildLevels_mem (H : List Nat → Nat) :
    ∀ (fuel level : Nat) (cur : List ProofTree.ProofArtifact)
      (a : ProofTree.ProofArtifact), a ∈ ProofTree.buildLevels H fuel level cur →
      a ∈ cur ∨ ArtifactShape a
  | 0, _, _, a, ha => Or.inl ha
  | fuel + 1, level, cur, a, ha => by
    simp only [ProofTree.buildLevels] at ha
    by_cases hlen : cur.length ≤ 1
    · rw [if_pos hlen] at ha
      exact Or.inl ha
    · rw [if_neg hlen] at ha
      rcases buildLevels_mem H fuel (level + 1) (ProofTree.pairLevel H level cur) a ha with
        hmem | hshape
      · exact Or.inr (pairLevel_shape H level cur a hmem)
      · exact Or.inr hshape

/-- C4 (amended): the final artifact of the aggregation, for any number
of input swaps, has the six ordered sign-magnitude outputs
(leaf_or_root, pnl magnitude, pnl negativity flag, remaining lots hash,
initial lots hash, price feed address): six public inputs with a boolean
flag in position 2 and no block-number output. -/
theorem buildTree_output_shape (H : List Nat → Nat)
    (proofs : List ProofTree.ProofArtifact) (a : ProofTree.ProofArtifact)
    (hsome : ProofTree.buildTree H proofs = some a) :
    ArtifactShape a := by
  rcases proofs with _ | ⟨p, _ | ⟨q, rest⟩⟩
  · simp [ProofTree.buildTree, ProofTree.buildLevels] at hsome
  · simp only [ProofTree.buildTree, Option.some.injEq] at hsome
    rw [← hsome]
    exact combineProofs_shape H p none 0
  · simp only [ProofTree.buildTree] at hsome
    have hstep : ProofTree.buildLevels H (p :: q :: rest).length 0 (p :: q :: rest) =
        ProofTree.buildLevels H (q :: rest).length 1
          (ProofTree.pairLevel H 0 (p :: q :: rest)) := by
      show ProofTree.buildLevels H ((q :: rest).length + 1) 0 (p :: q :: rest) = _
      simp only [ProofTree.buildLevels]
      rw [if_neg (by simp)]
    rw [hstep] at hsome
    have hmem : a ∈ ProofTree.buildLevels H (q :: rest).length 1
        (ProofTree.pairLevel H 0 (p :: q :: rest)) := by
      cases hbl : ProofTree.buildLevels H (q :: rest).length 1
          (ProofTree.pairLevel H 0 (p :: q :: rest)) with
      | nil => rw [hbl] at hsome; simp at hsome
      | cons x xs =>
        rw [hbl] at hsome
        simp only [List.head?_cons, Option.some.injEq] at hsome
        subst hsome
        exact List.mem_cons_self x xs
    rcases buildLevels_mem H _ _ _ a hmem with hmem2 | hshape
    · exact pairLevel_shape H 0 _ a hmem2
    · exact hshape

/-- Witness for C4 at a single-artifact aggregation. -/
theorem buildTree_output_shape_witness :
    ArtifactShape (ProofTree.combineProofs testHash artA none 0) :=
  buildTree_output_shape testHash [artA] (ProofTree.combineProofs testHash artA none 0) rfl

/- ## C5 -/

/-- C5: an aggregation over exactly one swap artifact still applies the
summary combinator once, with the right child absent and the level-0 zero
hash supplied in its place: the final proof is that single combinator
application and its root pair-hashes the leaf with the level-0 zero
hash. -/
theorem single_swap_summary_wrap (H : List Nat → Nat) (a : ProofTree.ProofArtifact) :
    ProofTree.buildTree H [a] = some (ProofTree.combineProofs H a none 0) ∧
    (ProofTree.combineProofs H a none 0).publicInputs.getD 0 0 =
      H [a.publicInputs.getD 0 0, Imt.zeroHash H 0] := by
  constructor
  · rfl
  · simp [ProofTree.combineProofs, ProofTree.summaryCombine]

/- ## C6 -/

/-- The pair-filling loop writes two entries per slot. -/
theorem lotPairs_length (lots : List Lot) : ∀ (fuel i : Nat),
    (LotTree.lotPairs lots i fuel).length = 2 * fuel
  | 0, _ => rfl
  | fuel + 1, i => by
    simp only [LotTree.lotPairs, List.length_cons, lotPairs_length lots fuel (i + 1)]
    omega

/-- Reading the pair-filling loop at slot offset k yields the lot fields
of slot i + k when that slot is within the lot list, and zero
otherwise. -/
theorem lotPairs_getD (lots : List Lot) : ∀ (fuel i k : Nat), k < fuel →
    (LotTree.lotPairs lots i fuel).getD (2 * k) 0 =
      (if i + k < lots.length then (lots.getD (i + k) ⟨0, 0⟩).amount else 0) ∧
    (LotTree.lotPairs lots i fuel).getD (2 * k + 1) 0 =
      (if i + k < lots.length then (lots.getD (i + k) ⟨0, 0⟩).costPerUnit else 0)
  | 0, _, k, hk => absurd hk (by omega)
  | fuel + 1, i, 0, _ => by
    simp [LotTree.lotPairs]
  | fuel + 1, i, k + 1, hk => by
    have hidx : 2 * (k + 1) = (2 * k + 1) + 1 := by omega
    have hidx2 : 2 * (k + 1) + 1 = (2 * k + 1 + 1) + 1 := by omega
    have ih := lotPairs_getD lots fuel (i + 1) k (by omega)
    have harg : i + 1 + k = i + (k + 1) := by omega
    rw [harg] at ih
    simp only [LotTree.lotPairs, hidx, hidx2, List.getD_cons_succ]
    exact ih

/-- C6: the lot leaf hash preimage has exactly 66 entries regardless of
num_lots, and whenever the supplied lot array is empty at and past
num_lots, as the compacted arrays written through setLots are, every
preimage entry at a lot position at or beyond num_lots is zero. -/
theorem hashLots_preimage_shape (tokenAddress numLots : Nat) (lots : List Lot)
    (hcompact : ∀ i, i < lots.length → numLots ≤ i → lots.getD i ⟨0, 0⟩ = ⟨0, 0⟩) :
    (LotTree.hashLotsPreimage tokenAddress numLots lots).length = 66 ∧
    ∀ i, numLots ≤ i → i < LotTree.MAX_LOTS →
      (LotTree.hashLotsPreimage tokenAddress numLots lots).getD (2 + 2 * i) 0 = 0 ∧
      (LotTree.hashLotsPreimage tokenAddress numLots lots).getD (3 + 2 * i) 0 = 0 := by
  constructor
  · unfold LotTree.hashLotsPreimage
    simp only [List.length_cons, lotPairs_length lots LotTree.MAX_LOTS 0]
    rfl
  · intro i hge hlt
    have hpair := lotPairs_getD lots LotTree.MAX_LOTS 0 i hlt
    simp only [Nat.zero_add] at hpair
    have hval : (if i < lots.length then (lots.getD i ⟨0, 0⟩).amount else 0) = 0 := by
      split
      · next hin => rw [hcompact i hin hge]
      · rfl
    have hval2 : (if i < lots.length then (lots.getD i ⟨0, 0⟩).costPerUnit else 0) = 0 := by
      split
      · next hin => rw [hcompact i hin hge]
      · rfl
    have hidx : 2 + 2 * i = (2 * i) + 1 + 1 := by omega
    have hidx2 : 3 + 2 * i = (2 * i + 1) + 1 + 1 := by omega
    unfold LotTree.hashLotsPreimage
    rw [hidx, hidx2]
    simp only [List.getD_cons_succ]
    constructor
    · rw [hpair.1]
      exact hval
    · rw [hpair.2]
      exact hval2

/-- Witness for C6 at a concrete leaf: token 9, one lot (4, 7); the
preimage has 66 entries and the pair of slot 1 is zero. -/
theorem hashLots_preimage_shape_witness :
    (LotTree.hashLotsPreimage 9 1 [⟨4, 7⟩]).length = 66 ∧
    (LotTree.hashLotsPreimage 9 1 [⟨4, 7⟩]).getD 4 0 = 0 ∧
    (LotTree.hashLotsPreimage 9 1 [⟨4, 7⟩]).getD 5 0 = 0 := by
  have h := hashLots_preimage_shape 9 1 [⟨4, 7⟩] (by decide)
  exact ⟨h.1, (h.2 1 (by decide) (by decide)).1, (h.2 1 (by decide) (by decide)).2⟩

/- ## C7 -/

/-- C7: the tag submitted for window position k is computed in two steps,
base tag H([secret, index + k]) then app-siloed tag
H([app, base tag]); the right side mentions only the secret, the app and
the tag index, so the computation is a pure function of those three
values and two runs over the same inputs produce identical tags. -/
theorem windowSiloedTags_two_step (H : List Nat → Nat)
    (secret app index count k : Nat) (hk : k < count) :
    (Scan.windowSiloedTags H secret app index count).get? k =
      some (H [app, H [secret, index + k]]) := by
  simp [Scan.windowSiloedTags, Scan.windowBaseTags, Scan.baseTag, Scan.siloTag,
    List.get?_map, List.get?_range, hk]

/-- Witness for C7 at window start 10, batch 5, position 2. -/
theorem windowSiloedTags_two_step_witness :
    (Scan.windowSiloedTags testHash 3 4 10 5).get? 2 =
      some (testHash [4, testHash [3, 12]]) :=
  windowSiloedTags_two_step testHash 3 4 10 5 2 (by decide)

/- ## C8 -/

/-- Every index of a window at or past the scan start and below the cap
stays within the scanned range. -/
theorem windowIndices_bounds (s m b index : Nat) (hs : s ≤ index)
    (i : Nat) (hi : i ∈ Scan.windowIndices s m b index) : s ≤ i ∧ i < s + m := by
  unfold Scan.windowIndices Scan.windowCount at hi
  simp only [List.mem_map, List.mem_range] at hi
  obtain ⟨t, ht, rfl⟩ := hi
  omega

/-- The window loop of the tag scan, started at offset k windows past the
start index: every queried index stays below start + max, every window
except the last one had a tag with logs, and window j covers the batch of
consecutive indices starting at start + (k + j) * batch. -/
theorem scanGo_spec (node : Nat → List Nat) (H : List Nat → Nat)
    (secret app s m b : Nat) : ∀ (fuel k : Nat),
    (∀ w ∈ Scan.scanGo node H secret app s m b fuel (s + k * b), ∀ i ∈ w,
      s ≤ i ∧ i < s + m) ∧
    (∀ j, j + 1 < (Scan.scanGo node H secret app s m b fuel (s + k * b)).length →
      Scan.windowAllEmpty node H secret app
        ((Scan.scanGo node H secret app s m b fuel (s + k * b)).getD j []) = false) ∧
    (∀ j, j < (Scan.scanGo node H secret app s m b fuel (s + k * b)).length →
      (Scan.scanGo node H secret app s m b fuel (s + k * b)).getD j [] =
        Scan.windowIndices s m b (s + (k + j) * b))
  | 0, k => by
    refine ⟨?_, ?_, ?_⟩ <;> intro j hj <;> simp [Scan.scanGo] at hj
  | fuel + 1, k => by
    simp only [Scan.scanGo]
    by_cases hcap : s + k * b < s + m
    · rw [if_pos hcap]
      by_cases hempty : Scan.windowAllEmpty node H secret app
          (Scan.windowIndices s m b (s + k * b))
      · rw [if_pos hempty]
        refine ⟨?_, ?_, ?_⟩
        · intro w hw i hi
          rw [List.mem_singleton] at hw
          subst hw
          exact windowIndices_bounds s m b _ (by omega) i hi
        · intro j hj
          simp at hj
        · intro j hj
          simp only [List.length_singleton] at hj
          interval_cases j
          simp
      · rw [if_neg hempty]
        have hnext : s + k * b + b = s + (k + 1) * b := by ring
        rw [hnext]
        have ih := scanGo_spec node H secret app s m b fuel (k + 1)
        refine ⟨?_, ?_, ?_⟩
        · intro w hw i hi
          rcases List.mem_cons.mp hw with hw | hw
          · subst hw
            exact windowIndices_bounds s m b _ (by omega) i hi
          · exact ih.1 w hw i hi
        · intro j hj
          match j with
          | 0 =>
            simp only [List.getD_cons_zero]
            exact Bool.eq_false_iff.mpr hempty
          | j + 1 =>
            simp only [List.length_cons] at hj
            simp only [List.getD_cons_succ]
            exact ih.2.1 j (by omega)
        · intro j hj
          match j with
          | 0 =>
            simp only [List.getD_cons_zero]
            rfl
          | j + 1 =>
            simp only [List.length_cons] at hj
            simp only [List.getD_cons_succ]
            rw [ih.2.2 j (by omega)]
            congr 1
            ring
    · rw [if_neg hcap]
      refine ⟨?_, ?_, ?_⟩ <;> intro j hj <;> simp at hj

/-- C8: the tag scan processes windows of batch-size consecutive indices
starting at the start index (window j starts at start + j * batch and is
truncated at the cap), it stops at the first window in which every tag
returned an empty log list (every earlier window had a hit), and it never
queries a tag index at or beyond start + max. -/
theorem scanWindows_spec (node : Nat → List Nat) (H : List Nat → Nat)
    (secret app s m b : Nat) :
    (∀ w ∈ Scan.scanWindows node H secret app s m b, ∀ i ∈ w,
      s ≤ i ∧ i < s + m) ∧
    (∀ j, j + 1 < (Scan.scanWindows node H secret app s m b).length →
      Scan.windowAllEmpty node H secret app
        ((Scan.scanWindows node H secret app s m b).getD j []) = false) ∧
    (∀ j, j < (Scan.scanWindows node H secret app s m b).length →
      (Scan.scanWindows node H secret app s m b).getD j [] =
        Scan.windowIndices s m b (s + j * b)) := by
  have h := scanGo_spec node H secret app s m b (m + 1) 0
  simp only [Nat.zero_mul, Nat.add_zero, Nat.zero_add] at h
  exact h

/-- Witness for C8 with an all-empty node response: the single processed
window is the batch starting at the start index, and index 2 of it lies
within the scanned range. -/
theorem scanWindows_spec_witness :
    (Scan.scanWindows (fun _ => []) testHash 3 4 0 10 3).getD 0 [] =
      Scan.windowIndices 0 10 3 0 ∧
    ((0 : Nat) ≤ 2 ∧ (2 : Nat) < 0 + 10) := by
  have h := scanWindows_spec (fun _ => []) testHash 3 4 0 10 3
  exact ⟨h.2.2 0 (by decide), h.1 [0, 1, 2] (by decide) 2 (by decide)⟩

/- ## C9 -/

/-- C9 counterexample: at a concrete undecryptable ciphertext the swap
driver aborts with a decryption error instead of silently dropping the
event and continuing. -/
theorem prove_decrypt_failure_aborts_concrete :
    SwapProver.prove testHash none (some 0) (some 3) true 1 2 3 [] 0 =
      Except.error SwapProver.DriverError.decryptFailed := rfl

/-- C9 (amended): whenever decryption of the ciphertext fails, the swap
driver fails hard with a decrypt error: the run aborts and the event is
not silently dropped (the tag scanner, not the swap driver, is what
passes undecryptable ciphertexts through as raw buffers). -/
theorem prove_decrypt_failure_aborts (H : List Nat → Nat)
    (blockHeader priceWitness : Option Nat) (proofVerifies : Bool)
    (tokenAddress priceFeedAddress blockNumber : Nat)
    (initialLots : List Lot) (initialNumLots : Nat) :
    SwapProver.prove H none blockHeader priceWitness proofVerifies
      tokenAddress priceFeedAddress blockNumber initialLots initialNumLots =
      Except.error SwapProver.DriverError.decryptFailed := rfl

/- ## C10 -/

/-- C10: for every 8-leaf state of the lot state tree and every slot
index below 8, recombining leaf i with the three siblings returned by
getSiblingPath, hashing the running node on the left when the level bit
of i is zero and on the right when it is one, yields exactly the value
returned by getRoot on the same leaves. -/
theorem getSiblingPath_recombines_to_getRoot (H : List Nat → Nat)
    (a b c d e f g h : Nat) (i : Nat) (hi : i < 8) :
    LotTree.specRecombine H i ([a, b, c, d, e, f, g, h].getD i 0)
      (LotTree.getSiblingPath H [a, b, c, d, e, f, g, h] i) =
    LotTree.getRoot H [a, b, c, d, e, f, g, h] := by
  interval_cases i <;> rfl

/-- Witness for C10 at slot 5 of a concrete tree. -/
theorem getSiblingPath_recombines_witness :
    LotTree.specRecombine testHash 5 ([0, 1, 2, 3, 4, 5, 6, 7].getD 5 0)
      (LotTree.getSiblingPath testHash [0, 1, 2, 3, 4, 5, 6, 7] 5) =
    LotTree.getRoot testHash [0, 1, 2, 3, 4, 5, 6, 7] :=
  getSiblingPath_recombines_to_getRoot testHash 0 1 2 3 4 5 6 7 5 (by decide)
